import Mathlib

/-!
Binary search tree of abdonkov/DSA

Shallow embedding of
`DataStructures/Binary Search Tree/binary_search_tree.c` and of
`DataStructures/Binary Search Tree/Remove_BST_keys_outside_the_given_range.cpp`.

A C pointer `Tree` (`struct tree*`, null or a node owning two children) is an
inductive tree: `NULL` is `Tree.nil`.  Destructive updates `tree->left = e; return tree`
become the rebuilt node.  `free`/`delete` of a node has no observable effect on the
returned pointer graph and is dropped.  Keys are C `int`s; the code only compares and
copies them, never does arithmetic on them, so they are embedded as `Int` (every
statement below holds in particular for the 32-bit range).  The `printf` output of a
traversal is the list of the printed keys.
-/

namespace BinarySearchTree

/-- The node graph reachable from a `Tree` pointer: `struct tree { value, left, right }`. -/
inductive Tree where
  | nil : Tree
  | node (left : Tree) (value : Int) (right : Tree) : Tree
  deriving DecidableEq

open Tree

/-- Source function `initTree`: a freshly allocated node without children. -/
def initTree (value : Int) : Tree := node nil value nil

/-- Source function `insert` of binary_search_tree.c (lines 20-52). -/
def insert : Tree → Int → Tree
  | nil, value => initTree value
  | node l v r, value =>
    if v = value then node l v r
    else if v > value then
      (if l = nil then node (initTree value) v r
       else node (insert l value) v r)
    else
      (if r = nil then node l v (initTree value)
       else node l v (insert r value))

/-- Source function `inorder` (lines 79-100): the keys in the order they are printed.
The four `if` statements are executed one after the other. -/
def inorder : Tree → List Int
  | nil => []
  | node l v r =>
    (if l = nil ∧ r = nil then [v] else []) ++
    (if l ≠ nil ∧ r = nil then inorder l ++ [v] else []) ++
    (if r ≠ nil ∧ l = nil then [v] ++ inorder r else []) ++
    (if r ≠ nil ∧ l ≠ nil then inorder l ++ [v] ++ inorder r else [])

/-- Source function `contains` (lines 125-148), with its `int` result 0 or 1. -/
def contains : Tree → Int → Int
  | nil, _ => 0
  | node l v r, value =>
    if v = value then 1
    else if value < v then
      (if l ≠ nil then contains l value else 0)
    else
      (if r ≠ nil then contains r value else 0)

/-- Source function `minimum` (lines 150-156).  The source dereferences its argument
without a null check, so the call on the empty tree has no result (`none`). -/
def minimum : Tree → Option Int
  | nil => none
  | node l v _ => if l = nil then some v else minimum l

/-- Source function `maximum` (lines 158-164); no result on the empty tree. -/
def maximum : Tree → Option Int
  | nil => none
  | node _ v r => if r = nil then some v else maximum r

/-- The loop `while (tmp->left != NULL) tmp = tmp->left;` of `delete` (lines 203-204),
started at a node `tmp` with left child `l` and key `v`; the result is `tmp->value`
after the loop. -/
def leftmostValue : Tree → Int → Int
  | nil, v => v
  | node l v _, _ => leftmostValue l v

/-- Source function `delete` (lines 192-218). -/
def delete : Tree → Int → Tree
  | nil, _ => nil
  | node l v r, value =>
    if v > value then node (delete l value) v r
    else if v < value then node l v (delete r value)
    else if l ≠ nil ∧ r ≠ nil then
      match r with
      | nil => node l v r
      | node rl rv rr =>
        let tmp := leftmostValue rl rv
        node l tmp (delete (node rl rv rr) tmp)
    else
      (if l ≠ nil then l else r)

/-- Source function `height` (lines 167-190).  The `int` result counts nodes on a path,
so it stays far below the 32-bit bound and is embedded without wrap-around. -/
def height : Tree → Int
  | nil => 0
  | node l _ r =>
    let left := height l
    let right := height r
    if left ≥ right then left + 1 else right + 1

/-- Source function `lowestCommonAncestor` (lines 220-237).

The locals `next_stang` and `next_drept` are declared without initialiser and are only
assigned when the corresponding child exists.  `init` is what a read of such a
never-assigned local yields: `none` is the source as written (the content is
indeterminate and reading it is undefined); `some x` is an execution in which both
locals are found to hold the stale value `x`.  The statements below are made at `none`
or for every `init`.  The result is `none` when the execution has no defined result: an indeterminate local
is read (`next_stang` is read first in the first two tests, `next_drept` in the same
test or first in the third one, so both are read on every path that gets past the
leaf test), or the end of the function is reached without `return`.  On the null
pointer `contains` returns 0, so the first test returns -1. -/
def lowestCommonAncestor (init : Option Int) : Tree → Int → Int → Option Int
  | nil, _, _ => some (-1)
  | node l v r, value1, value2 =>
    if contains (node l v r) value1 = 0 ∨ contains (node l v r) value2 = 0 then some (-1)
    else
      let next_stang := if l ≠ nil then lowestCommonAncestor init l value1 value2 else init
      let next_drept := if r ≠ nil then lowestCommonAncestor init r value1 value2 else init
      if l = nil ∧ r = nil then some (-1)
      else
        match next_stang, next_drept with
        | some s, some d =>
          if s = -1 ∧ d = -1 then some v
          else if s = -1 ∧ d ≠ -1 then lowestCommonAncestor init r value1 value2
          else if d = -1 ∧ s ≠ -1 then lowestCommonAncestor init l value1 value2
          else none
        | _, _ => none

/-- Source function `checkBST` (lines 239-250), with its `int` result 0 or 1.  The two
`match` expressions are the tests `node->left != NULL && node->left->value > node->value`
and `node->right != NULL && node->right->value < node->value`. -/
def checkBST : Tree → Int
  | nil => 1
  | node l v r =>
    if (match l with
        | nil => false
        | node _ lv _ => decide (lv > v)) then 0
    else if (match r with
        | nil => false
        | node _ rv _ => decide (rv < v)) then 0
    else if checkBST l = 0 ∨ checkBST r = 0 then 0
    else 1

/-- The driver loop of `main` (lines 264-274): the keys read from the input are
inserted one by one, starting from the empty tree `T = NULL`. -/
def insertAll (ks : List Int) : Tree := ks.foldl insert nil

/-- The keys stored in the nodes of a tree, left subtree first (specification side). -/
def keys : Tree → List Int
  | nil => []
  | node l v r => keys l ++ v :: keys r

/-- The BST ordering invariant of the specification: at every node, every key of the
left subtree is strictly less than the node's key and every key of the right subtree
is strictly greater. -/
def isBST : Tree → Prop
  | nil => True
  | node l v r => (∀ x ∈ keys l, x < v) ∧ (∀ x ∈ keys r, v < x) ∧ isBST l ∧ isBST r

/-- Keys of the nodes on the path from the root down to the node storing `k`, root
first and that node last: the ancestors of the node storing `k`, a node counting as
its own ancestor (specification side).  Empty when no node stores `k`. -/
def ancestors : Tree → Int → List Int
  | nil, _ => []
  | node l v r, k =>
    if v = k then [v]
    else if k ∈ keys l then v :: ancestors l k
    else if k ∈ keys r then v :: ancestors r k
    else []

/-- Key of the deepest node that is an ancestor of both the node storing `a` and the
node storing `b` (specification side): the last of the ancestors of `a`, listed root
first, that are also ancestors of `b`. -/
def deepestCommonAncestor (t : Tree) (a b : Int) : Option Int :=
  ((ancestors t a).filter (fun x => decide (x ∈ ancestors t b))).getLast?

/-- Key stored at the root of a tree, when there is one (specification side). -/
def rootKey : Tree → Option Int
  | nil => none
  | node _ v _ => some v

/-- Local ordering as the specification words it for `checkBST`: at every node the
immediate left child's key, when there is a left child, is strictly less than the
node's key, and the immediate right child's key, when there is one, is strictly
greater. -/
def childrenStrictlyOrdered : Tree → Prop
  | nil => True
  | node l v r =>
    (∀ x ∈ rootKey l, x < v) ∧ (∀ x ∈ rootKey r, v < x) ∧
      childrenStrictlyOrdered l ∧ childrenStrictlyOrdered r

/-- Local ordering with equality allowed: at every node the immediate left child's
key, when there is a left child, is not greater than the node's key, and the immediate
right child's key, when there is one, is not less. -/
def childrenOrdered : Tree → Prop
  | nil => True
  | node l v r =>
    (∀ x ∈ rootKey l, x ≤ v) ∧ (∀ x ∈ rootKey r, v ≤ x) ∧
      childrenOrdered l ∧ childrenOrdered r

/-- The invariant is decidable, by recursion over the tree. -/
instance decIsBST : (t : Tree) → Decidable (isBST t)
  | nil => inferInstanceAs (Decidable True)
  | node l v r =>
    have := decIsBST l
    have := decIsBST r
    inferInstanceAs
      (Decidable ((∀ x ∈ keys l, x < v) ∧ (∀ x ∈ keys r, v < x) ∧ isBST l ∧ isBST r))

/-- The strict local ordering is decidable, by recursion over the tree. -/
instance decChildrenStrictlyOrdered : (t : Tree) → Decidable (childrenStrictlyOrdered t)
  | nil => inferInstanceAs (Decidable True)
  | node l v r =>
    have := decChildrenStrictlyOrdered l
    have := decChildrenStrictlyOrdered r
    inferInstanceAs
      (Decidable ((∀ x ∈ rootKey l, x < v) ∧ (∀ x ∈ rootKey r, v < x) ∧
        childrenStrictlyOrdered l ∧ childrenStrictlyOrdered r))

/-- The local ordering with equality is decidable, by recursion over the tree. -/
instance decChildrenOrdered : (t : Tree) → Decidable (childrenOrdered t)
  | nil => inferInstanceAs (Decidable True)
  | node l v r =>
    have := decChildrenOrdered l
    have := decChildrenOrdered r
    inferInstanceAs
      (Decidable ((∀ x ∈ rootKey l, x ≤ v) ∧ (∀ x ∈ rootKey r, v ≤ x) ∧
        childrenOrdered l ∧ childrenOrdered r))

end BinarySearchTree

namespace RemoveOutsideRange

open BinarySearchTree BinarySearchTree.Tree

/-- Source function `removeOutsideRange` of Remove_BST_keys_outside_the_given_range.cpp
(lines 17-44).  Its `struct node { key, left, right }` has the shape of `Tree`. -/
def removeOutsideRange : Tree → Int → Int → Tree
  | nil, _, _ => nil
  | node l k r, min, max =>
    let l1 := removeOutsideRange l min max
    let r1 := removeOutsideRange r min max
    if k < min then r1
    else if k > max then l1
    else node l1 k r1

/-- Source function `newNode` (lines 47-53). -/
def newNode (num : Int) : Tree := node nil num nil

/-- Source function `insert` of Remove_BST_keys_outside_the_given_range.cpp
(lines 56-65). -/
def insert : Tree → Int → Tree
  | nil, key => newNode key
  | node l k r, key =>
    if k > key then node (insert l key) k r
    else node l k (insert r key)

/-- Source function `inorderTraversal` (lines 68-76): the keys in printing order. -/
def inorderTraversal : Tree → List Int
  | nil => []
  | node l k r => inorderTraversal l ++ [k] ++ inorderTraversal r

/-- The tree built by `main` (lines 81-88). -/
def mainTree : Tree :=
  insert (insert (insert (insert (insert (insert (insert nil 6) (-13)) 14) (-8)) 15) 13) 7

end RemoveOutsideRange

namespace BinarySearchTree

open Tree


theorem insert_node (l r : Tree) (v k : Int) :
    insert (node l v r) k =
      if v = k then node l v r
      else if k < v then node (insert l k) v r else node l v (insert r k) := by
  simp only [insert, gt_iff_lt]
  split_ifs <;> simp_all [insert]

theorem mem_keys_insert (t : Tree) (k x : Int) :
    x ∈ keys (insert t k) ↔ x = k ∨ x ∈ keys t := by
  induction t with
  | nil => simp [insert, initTree, keys]
  | node l v r ihl ihr =>
    rw [insert_node]
    split_ifs with h1 h2
    · subst h1; simp only [keys, List.mem_append, List.mem_cons]; tauto
    · simp only [keys, List.mem_append, List.mem_cons, ihl]; tauto
    · simp only [keys, List.mem_append, List.mem_cons, ihr]; tauto

theorem isBST_insert (t : Tree) (k : Int) (h : isBST t) : isBST (insert t k) := by
  induction t with
  | nil => simp [insert, initTree, isBST, keys]
  | node l v r ihl ihr =>
    obtain ⟨hl, hr, bl, br⟩ := h
    rw [insert_node]
    split_ifs with h1 h2
    · exact ⟨hl, hr, bl, br⟩
    · refine ⟨?_, hr, ihl bl, br⟩
      intro x hx
      rcases (mem_keys_insert l k x).1 hx with rfl | hx
      · exact h2
      · exact hl x hx
    · refine ⟨hl, ?_, bl, ihr br⟩
      intro x hx
      rcases (mem_keys_insert r k x).1 hx with rfl | hx
      · omega
      · exact hr x hx

theorem insert_eq_self_of_mem (t : Tree) (k : Int) (h : isBST t) (hk : k ∈ keys t) :
    insert t k = t := by
  induction t with
  | nil => simp [keys] at hk
  | node l v r ihl ihr =>
    obtain ⟨hl, hr, bl, br⟩ := h
    rw [insert_node]
    simp only [keys, List.mem_append, List.mem_cons] at hk
    split_ifs with h1 h2
    · rfl
    · rcases hk with hk | hk | hk
      · rw [ihl bl hk]
      · exact absurd hk.symm h1
      · have := hr k hk; omega
    · rcases hk with hk | hk | hk
      · have := hl k hk; omega
      · exact absurd hk.symm h1
      · rw [ihr br hk]

theorem contains_node (l r : Tree) (v k : Int) :
    contains (node l v r) k =
      if v = k then 1 else if k < v then contains l k else contains r k := by
  simp only [contains]
  split_ifs <;> simp_all [contains]

theorem contains_insert_self (t : Tree) (k : Int) : contains (insert t k) k = 1 := by
  induction t with
  | nil => simp [insert, initTree, contains]
  | node l v r ihl ihr =>
    rw [insert_node]
    split_ifs with h1 h2
    · rw [contains_node, if_pos h1]
    · rw [contains_node, if_neg h1, if_pos h2, ihl]
    · rw [contains_node, if_neg h1, if_neg h2, ihr]

theorem contains_eq_zero_or_one (t : Tree) (k : Int) : contains t k = 0 ∨ contains t k = 1 := by
  induction t with
  | nil => simp [contains]
  | node l v r ihl ihr =>
    rw [contains_node]
    split_ifs
    · exact Or.inr rfl
    · exact ihl
    · exact ihr

theorem contains_eq_one_iff (t : Tree) (k : Int) (h : isBST t) :
    contains t k = 1 ↔ k ∈ keys t := by
  induction t with
  | nil => simp [contains, keys]
  | node l v r ihl ihr =>
    obtain ⟨hl, hr, bl, br⟩ := h
    rw [contains_node]
    simp only [keys, List.mem_append, List.mem_cons]
    split_ifs with h1 h2
    · simp [h1]
    · rw [ihl bl]
      constructor
      · exact Or.inl
      · rintro (hk | hk | hk)
        · exact hk
        · exact absurd hk.symm h1
        · have := hr k hk; omega
    · rw [ihr br]
      constructor
      · exact fun hk => Or.inr (Or.inr hk)
      · rintro (hk | hk | hk)
        · have := hl k hk; omega
        · exact absurd hk.symm h1
        · exact hk

theorem inorder_eq_keys (t : Tree) : inorder t = keys t := by
  induction t with
  | nil => rfl
  | node l v r ihl ihr =>
    simp only [inorder, keys, ihl, ihr]
    by_cases h1 : l = nil <;> by_cases h2 : r = nil <;> simp [h1, h2, keys]

theorem sorted_keys (t : Tree) (h : isBST t) : List.Sorted (· < ·) (keys t) := by
  induction t with
  | nil => simp [keys]
  | node l v r ihl ihr =>
    obtain ⟨hl, hr, bl, br⟩ := h
    simp only [keys, List.Sorted, List.pairwise_append, List.pairwise_cons, List.mem_cons]
    refine ⟨ihl bl, ⟨hr, ihr br⟩, ?_⟩
    rintro a ha b (rfl | hb)
    · exact hl a ha
    · exact lt_trans (hl a ha) (hr b hb)

theorem isBST_foldl_insert (ks : List Int) (t : Tree) (h : isBST t) :
    isBST (ks.foldl insert t) := by
  induction ks generalizing t with
  | nil => exact h
  | cons k ks ih => exact ih _ (isBST_insert t k h)

theorem mem_keys_foldl_insert (ks : List Int) (t : Tree) (x : Int) :
    x ∈ keys (ks.foldl insert t) ↔ x ∈ ks ∨ x ∈ keys t := by
  induction ks generalizing t with
  | nil => simp
  | cons k ks ih =>
    simp only [List.foldl_cons, ih, mem_keys_insert, List.mem_cons]
    tauto

theorem isBST_insertAll (ks : List Int) : isBST (insertAll ks) :=
  isBST_foldl_insert ks nil trivial

theorem mem_keys_insertAll (ks : List Int) (x : Int) : x ∈ keys (insertAll ks) ↔ x ∈ ks := by
  simp [insertAll, mem_keys_foldl_insert, keys]

theorem keys_eq_of_sorted_of_mem_iff (t : Tree) (h : isBST t) (s : Finset Int)
    (hm : ∀ x, x ∈ keys t ↔ x ∈ s) : keys t = s.sort (· ≤ ·) := by
  have hs := sorted_keys t h
  apply List.eq_of_perm_of_sorted _ hs.le_of_lt (Finset.sort_sorted _ _)
  apply (List.perm_ext_iff_of_nodup hs.nodup (Finset.sort_nodup _ _)).2
  intro x
  rw [hm, Finset.mem_sort]

/-- C1: `insert` preserves the BST ordering invariant; hence the tree built by
inserting any finite sequence of keys one by one into the empty tree satisfies the
invariant after every insertion (that is, after each initial segment of the
sequence). -/
theorem insert_preserves_isBST (t : Tree) (k : Int) (h : isBST t) :
    isBST (insert t k) ∧
      ∀ (ks : List Int) (n : Nat), n ≤ ks.length → isBST (insertAll (ks.take n)) :=
  ⟨isBST_insert t k h, fun ks n _ => isBST_insertAll (ks.take n)⟩

theorem insert_preserves_isBST_witness :
    isBST (node (node nil 3 nil) 5 nil) ∧
      (isBST (insert (node (node nil 3 nil) 5 nil) 4) ∧
        ∀ (ks : List Int) (n : Nat), n ≤ ks.length → isBST (insertAll (ks.take n))) :=
  ⟨by decide, insert_preserves_isBST (node (node nil 3 nil) 5 nil) 4 (by decide)⟩

/-- C2: inserting a key that is already stored in a tree satisfying the BST ordering
invariant returns the tree itself, unchanged in shape and keys. -/
theorem insert_existing_key_noop (t : Tree) (k : Int) (h : isBST t) (hk : k ∈ keys t) :
    insert t k = t :=
  insert_eq_self_of_mem t k h hk

theorem insert_existing_key_noop_witness :
    isBST (node (node nil 3 nil) 5 (node nil 8 nil)) ∧
      (8 : Int) ∈ keys (node (node nil 3 nil) 5 (node nil 8 nil)) ∧
      insert (node (node nil 3 nil) 5 (node nil 8 nil)) 8
        = node (node nil 3 nil) 5 (node nil 8 nil) :=
  ⟨by decide, by decide,
    insert_existing_key_noop (node (node nil 3 nil) 5 (node nil 8 nil)) 8
      (by decide) (by decide)⟩

/-- C3: for every tree, with no assumption on its ordering, and every key `k`,
`contains (insert t k) k` returns 1. -/
theorem contains_after_insert (t : Tree) (k : Int) : contains (insert t k) k = 1 :=
  contains_insert_self t k

/-- C4: inserting a list of keys in order into the empty tree and traversing the result
in-order prints a strictly ascending list whose members are exactly the members of
the input list, that is the sorted list of the distinct input keys; for the keys
6, -13, 14, -8, 15, 13, 7 it prints -13 -8 6 7 13 14 15. -/
theorem inorder_insertAll_sorted_distinct (ks : List Int) :
    List.Sorted (· < ·) (inorder (insertAll ks)) ∧
      (∀ x, x ∈ inorder (insertAll ks) ↔ x ∈ ks) ∧
      inorder (insertAll ks) = ks.toFinset.sort (· ≤ ·) ∧
      inorder (insertAll [6, -13, 14, -8, 15, 13, 7]) = [-13, -8, 6, 7, 13, 14, 15] := by
  refine ⟨?_, ?_, ?_, by decide⟩
  · rw [inorder_eq_keys]; exact sorted_keys _ (isBST_insertAll ks)
  · intro x; rw [inorder_eq_keys]; exact mem_keys_insertAll ks x
  · rw [inorder_eq_keys]
    apply keys_eq_of_sorted_of_mem_iff _ (isBST_insertAll ks)
    intro x
    rw [mem_keys_insertAll, List.mem_toFinset]

/-- C5: on a tree satisfying the BST ordering invariant `contains` decides membership:
it returns 1 exactly when some node stores the key and 0 exactly when none does; on
the empty tree it returns 0. -/
theorem contains_decides_membership (t : Tree) (k : Int) (h : isBST t) :
    (contains t k = 1 ↔ k ∈ keys t) ∧ (contains t k = 0 ↔ k ∉ keys t) ∧
      contains nil k = 0 := by
  have h1 := contains_eq_one_iff t k h
  refine ⟨h1, ?_, rfl⟩
  rw [← h1]
  rcases contains_eq_zero_or_one t k with h0 | h0 <;> simp [h0]

theorem contains_decides_membership_witness :
    isBST (node (node nil 3 nil) 5 (node nil 8 nil)) ∧
      ((contains (node (node nil 3 nil) 5 (node nil 8 nil)) 3 = 1
          ↔ (3 : Int) ∈ keys (node (node nil 3 nil) 5 (node nil 8 nil))) ∧
        (contains (node (node nil 3 nil) 5 (node nil 8 nil)) 3 = 0
          ↔ (3 : Int) ∉ keys (node (node nil 3 nil) 5 (node nil 8 nil))) ∧
        contains nil 3 = 0) :=
  ⟨by decide, contains_decides_membership (node (node nil 3 nil) 5 (node nil 8 nil)) 3
    (by decide)⟩

theorem minimum_spec (t : Tree) (hne : t ≠ nil) (h : isBST t) :
    ∃ m, minimum t = some m ∧ m ∈ keys t ∧ ∀ x ∈ keys t, m ≤ x := by
  induction t with
  | nil => exact absurd rfl hne
  | node l v r ihl _ =>
    obtain ⟨hl, hr, bl, _⟩ := h
    by_cases hnil : l = nil
    · subst hnil
      refine ⟨v, by simp [minimum], by simp [keys], ?_⟩
      intro x hx
      simp only [keys, List.nil_append, List.mem_cons] at hx
      rcases hx with rfl | hx
      · exact le_refl _
      · exact le_of_lt (hr x hx)
    · obtain ⟨m, hm, hmem, hle⟩ := ihl hnil bl
      refine ⟨m, by simp [minimum, hnil, hm], by simp [keys, hmem], ?_⟩
      intro x hx
      simp only [keys, List.mem_append, List.mem_cons] at hx
      have hmv := hl m hmem
      rcases hx with hx | rfl | hx
      · exact hle x hx
      · exact le_of_lt hmv
      · exact le_of_lt (lt_trans hmv (hr x hx))

theorem maximum_spec (t : Tree) (hne : t ≠ nil) (h : isBST t) :
    ∃ m, maximum t = some m ∧ m ∈ keys t ∧ ∀ x ∈ keys t, x ≤ m := by
  induction t with
  | nil => exact absurd rfl hne
  | node l v r _ ihr =>
    obtain ⟨hl, hr, _, br⟩ := h
    by_cases hnil : r = nil
    · subst hnil
      refine ⟨v, by simp [maximum], by simp [keys], ?_⟩
      intro x hx
      simp only [keys, List.mem_append, List.mem_cons, List.not_mem_nil, or_false] at hx
      rcases hx with hx | rfl
      · exact le_of_lt (hl x hx)
      · exact le_refl _
    · obtain ⟨m, hm, hmem, hle⟩ := ihr hnil br
      refine ⟨m, by simp [maximum, hnil, hm], by simp [keys, hmem], ?_⟩
      intro x hx
      simp only [keys, List.mem_append, List.mem_cons] at hx
      have hmv := hr m hmem
      rcases hx with hx | rfl | hx
      · exact le_of_lt (lt_trans (hl x hx) hmv)
      · exact le_of_lt hmv
      · exact hle x hx

theorem minimum_node_eq_leftmostValue (l r : Tree) (v : Int) :
    minimum (node l v r) = some (leftmostValue l v) := by
  induction l generalizing v r with
  | nil => simp [minimum, leftmostValue]
  | node a b c iha _ =>
    have h := iha c b
    simp only [minimum, leftmostValue] at h ⊢
    simpa using h

theorem leftmostValue_spec (l r : Tree) (v : Int) (h : isBST (node l v r)) :
    leftmostValue l v ∈ keys (node l v r) ∧ ∀ x ∈ keys (node l v r), leftmostValue l v ≤ x := by
  obtain ⟨m, hm, hmem, hle⟩ := minimum_spec (node l v r) (by simp) h
  rw [minimum_node_eq_leftmostValue] at hm
  cases hm
  exact ⟨hmem, hle⟩

theorem delete_node_lt (l r : Tree) (v k : Int) (h : k < v) :
    delete (node l v r) k = node (delete l k) v r := by
  cases r <;> simp [delete, h]

theorem delete_node_gt (l r : Tree) (v k : Int) (h : v < k) :
    delete (node l v r) k = node l v (delete r k) := by
  have h1 : ¬ k < v := by omega
  cases r <;> simp [delete, h, h1]

theorem delete_node_eq_two (l rl rr : Tree) (v rv : Int) (hl : l ≠ nil) :
    delete (node l v (node rl rv rr)) v =
      node l (leftmostValue rl rv) (delete (node rl rv rr) (leftmostValue rl rv)) := by
  simp [delete, hl]

theorem delete_node_eq_right_nil (l : Tree) (v : Int) : delete (node l v nil) v = l := by
  by_cases hl : l = nil <;> simp [delete, hl]

theorem delete_node_eq_left_nil (r : Tree) (v : Int) : delete (node nil v r) v = r := by
  cases r <;> simp [delete]

theorem mem_keys_delete (t : Tree) (k j : Int) (h : isBST t) :
    j ∈ keys (delete t k) ↔ j ∈ keys t ∧ j ≠ k := by
  induction t generalizing k with
  | nil => simp [delete, keys]
  | node l v r ihl ihr =>
    obtain ⟨hl, hr, bl, br⟩ := h
    rcases lt_trichotomy k v with hlt | heq | hgt
    · rw [delete_node_lt _ _ _ _ hlt]
      simp only [keys, List.mem_append, List.mem_cons, ihl k bl]
      constructor
      · rintro (⟨h1, h2⟩ | rfl | h1)
        · exact ⟨Or.inl h1, h2⟩
        · exact ⟨Or.inr (Or.inl rfl), by omega⟩
        · exact ⟨Or.inr (Or.inr h1), by have := hr j h1; omega⟩
      · rintro ⟨h1 | h1 | h1, h2⟩
        · exact Or.inl ⟨h1, h2⟩
        · exact Or.inr (Or.inl h1)
        · exact Or.inr (Or.inr h1)
    · subst heq
      cases r with
      | nil =>
        rw [delete_node_eq_right_nil]
        simp only [keys, List.mem_append, List.mem_cons, List.not_mem_nil, or_false]
        constructor
        · intro h1
          exact ⟨Or.inl h1, by have := hl j h1; omega⟩
        · rintro ⟨h1 | h1, h2⟩
          · exact h1
          · exact absurd h1 h2
      | node rl rv rr =>
        by_cases hnil : l = nil
        · subst hnil
          rw [delete_node_eq_left_nil]
          simp only [keys, List.nil_append, List.mem_cons, List.mem_append]
          constructor
          · intro h1
            have := hr j (by simpa [keys] using h1)
            exact ⟨Or.inr h1, by omega⟩
          · rintro ⟨h1 | h1, h2⟩
            · exact absurd h1 h2
            · exact h1
        · rw [delete_node_eq_two _ _ _ _ _ hnil]
          obtain ⟨hm, _⟩ := leftmostValue_spec rl rr rv br
          have ih := ihr (leftmostValue rl rv) br
          simp only [keys, List.mem_append, List.mem_cons] at ih hm hr ⊢
          rw [ih]
          constructor
          · rintro (h1 | h1 | ⟨h1, _⟩)
            · exact ⟨Or.inl h1, by have := hl j h1; omega⟩
            · rw [h1]
              exact ⟨Or.inr (Or.inr hm), by have := hr _ hm; omega⟩
            · exact ⟨Or.inr (Or.inr h1), by have := hr _ h1; omega⟩
          · rintro ⟨h1 | h1 | h1, h2⟩
            · exact Or.inl h1
            · exact absurd h1 h2
            · by_cases h3 : j = leftmostValue rl rv
              · exact Or.inr (Or.inl h3)
              · exact Or.inr (Or.inr ⟨h1, h3⟩)
    · rw [delete_node_gt _ _ _ _ hgt]
      simp only [keys, List.mem_append, List.mem_cons, ihr k br]
      constructor
      · rintro (h1 | rfl | ⟨h1, h2⟩)
        · exact ⟨Or.inl h1, by have := hl j h1; omega⟩
        · exact ⟨Or.inr (Or.inl rfl), by omega⟩
        · exact ⟨Or.inr (Or.inr h1), h2⟩
      · rintro ⟨h1 | h1 | h1, h2⟩
        · exact Or.inl h1
        · exact Or.inr (Or.inl h1)
        · exact Or.inr (Or.inr ⟨h1, h2⟩)

theorem isBST_delete (t : Tree) (k : Int) (h : isBST t) : isBST (delete t k) := by
  induction t generalizing k with
  | nil => simp [delete, isBST]
  | node l v r ihl ihr =>
    have hbst := h
    obtain ⟨hl, hr, bl, br⟩ := h
    rcases lt_trichotomy k v with hlt | heq | hgt
    · rw [delete_node_lt _ _ _ _ hlt]
      exact ⟨fun x hx => hl x ((mem_keys_delete l k x bl).1 hx).1, hr, ihl k bl, br⟩
    · subst heq
      cases r with
      | nil => rw [delete_node_eq_right_nil]; exact bl
      | node rl rv rr =>
        by_cases hnil : l = nil
        · subst hnil; rw [delete_node_eq_left_nil]; exact br
        · rw [delete_node_eq_two _ _ _ _ _ hnil]
          obtain ⟨hm, hle⟩ := leftmostValue_spec rl rr rv br
          refine ⟨?_, ?_, bl, ihr _ br⟩
          · intro x hx
            exact lt_trans (hl x hx) (hr _ hm)
          · intro x hx
            obtain ⟨h1, h2⟩ := (mem_keys_delete _ _ x br).1 hx
            exact lt_of_le_of_ne (hle x h1) (Ne.symm h2)
    · rw [delete_node_gt _ _ _ _ hgt]
      exact ⟨hl, fun x hx => hr x ((mem_keys_delete r k x br).1 hx).1, bl, ihr k br⟩

theorem delete_eq_self_of_not_mem (t : Tree) (k : Int) (hk : k ∉ keys t) : delete t k = t := by
  induction t with
  | nil => rfl
  | node l v r ihl ihr =>
    simp only [keys, List.mem_append, List.mem_cons, not_or] at hk
    obtain ⟨h1, h2, h3⟩ := hk
    rcases lt_trichotomy k v with hlt | heq | hgt
    · rw [delete_node_lt _ _ _ _ hlt, ihl h1]
    · exact absurd heq h2
    · rw [delete_node_gt _ _ _ _ hgt, ihr h3]

/-- C6: on a tree satisfying the BST ordering invariant `delete` removes exactly the
requested key: `contains` returns 0 for it afterwards, and every other key is stored
in the result if and only if it was stored before. -/
theorem delete_removes_exactly_key (t : Tree) (k : Int) (h : isBST t) :
    contains (delete t k) k = 0 ∧
      ∀ j : Int, j ≠ k → (j ∈ keys (delete t k) ↔ j ∈ keys t) := by
  constructor
  · have h1 := contains_eq_one_iff (delete t k) k (isBST_delete t k h)
    rcases contains_eq_zero_or_one (delete t k) k with h0 | h0
    · exact h0
    · exact absurd rfl ((mem_keys_delete t k k h).1 (h1.1 h0)).2
  · intro j hj
    rw [mem_keys_delete t k j h]
    exact ⟨fun hx => hx.1, fun hx => ⟨hx, hj⟩⟩

theorem delete_removes_exactly_key_witness :
    isBST (node (node nil 3 nil) 5 (node (node nil 6 nil) 8 nil)) ∧
      (contains (delete (node (node nil 3 nil) 5 (node (node nil 6 nil) 8 nil)) 5) 5 = 0 ∧
        ∀ j : Int, j ≠ 5 →
          (j ∈ keys (delete (node (node nil 3 nil) 5 (node (node nil 6 nil) 8 nil)) 5)
            ↔ j ∈ keys (node (node nil 3 nil) 5 (node (node nil 6 nil) 8 nil)))) :=
  ⟨by decide,
    delete_removes_exactly_key (node (node nil 3 nil) 5 (node (node nil 6 nil) 8 nil)) 5
      (by decide)⟩

/-- C7: `delete` preserves the BST ordering invariant for every key, present or not;
in particular in the two-children case, where the node's key is overwritten by the
minimum of the right subtree and that minimum is deleted from the right subtree. -/
theorem delete_preserves_isBST (t : Tree) (k : Int) (h : isBST t) :
    isBST (delete t k) ∧
      ∀ (l rl rr : Tree) (rv : Int), t = node l k (node rl rv rr) → l ≠ nil →
        minimum (node rl rv rr) = some (leftmostValue rl rv) ∧
        delete t k = node l (leftmostValue rl rv) (delete (node rl rv rr) (leftmostValue rl rv)) ∧
        isBST (node l (leftmostValue rl rv) (delete (node rl rv rr) (leftmostValue rl rv))) := by
  refine ⟨isBST_delete t k h, ?_⟩
  intro l rl rr rv ht hl
  subst ht
  have h2 := delete_node_eq_two l rl rr k rv hl
  refine ⟨minimum_node_eq_leftmostValue rl rr rv, h2, ?_⟩
  rw [← h2]
  exact isBST_delete _ k h

theorem delete_preserves_isBST_witness :
    isBST (node (node nil 3 nil) 5 (node (node nil 6 nil) 8 nil)) ∧
      (isBST (delete (node (node nil 3 nil) 5 (node (node nil 6 nil) 8 nil)) 5) ∧
      ∀ (l rl rr : Tree) (rv : Int),
        node (node nil 3 nil) 5 (node (node nil 6 nil) 8 nil) = node l 5 (node rl rv rr) →
        l ≠ nil →
        minimum (node rl rv rr) = some (leftmostValue rl rv) ∧
        delete (node (node nil 3 nil) 5 (node (node nil 6 nil) 8 nil)) 5
          = node l (leftmostValue rl rv) (delete (node rl rv rr) (leftmostValue rl rv)) ∧
        isBST (node l (leftmostValue rl rv) (delete (node rl rv rr) (leftmostValue rl rv)))) :=
  ⟨by decide,
    delete_preserves_isBST (node (node nil 3 nil) 5 (node (node nil 6 nil) 8 nil)) 5
      (by decide)⟩

/-- C8: deleting a key that no node of the tree stores returns the tree itself,
whatever the ordering of the tree. -/
theorem delete_absent_key_noop (t : Tree) (k : Int) (hk : k ∉ keys t) : delete t k = t :=
  delete_eq_self_of_not_mem t k hk

theorem delete_absent_key_noop_witness :
    (4 : Int) ∉ keys (node (node nil 9 nil) 5 (node nil 1 nil)) ∧
      delete (node (node nil 9 nil) 5 (node nil 1 nil)) 4
        = node (node nil 9 nil) 5 (node nil 1 nil) :=
  ⟨by decide, delete_absent_key_noop (node (node nil 9 nil) 5 (node nil 1 nil)) 4 (by decide)⟩

/-- C10: on a non-empty tree satisfying the BST ordering invariant `minimum` returns a
stored key that is less than or equal to every stored key, and `maximum` returns a
stored key that is greater than or equal to every stored key. -/
theorem minimum_maximum_extreme (t : Tree) (hne : t ≠ nil) (h : isBST t) :
    (∃ m, minimum t = some m ∧ m ∈ keys t ∧ ∀ x ∈ keys t, m ≤ x) ∧
      (∃ m, maximum t = some m ∧ m ∈ keys t ∧ ∀ x ∈ keys t, x ≤ m) :=
  ⟨minimum_spec t hne h, maximum_spec t hne h⟩

theorem minimum_maximum_extreme_witness :
    node (node nil 3 nil) 5 (node (node nil 6 nil) 8 nil) ≠ nil ∧
      isBST (node (node nil 3 nil) 5 (node (node nil 6 nil) 8 nil)) ∧
      ((∃ m, minimum (node (node nil 3 nil) 5 (node (node nil 6 nil) 8 nil)) = some m ∧
          m ∈ keys (node (node nil 3 nil) 5 (node (node nil 6 nil) 8 nil)) ∧
          ∀ x ∈ keys (node (node nil 3 nil) 5 (node (node nil 6 nil) 8 nil)), m ≤ x) ∧
        (∃ m, maximum (node (node nil 3 nil) 5 (node (node nil 6 nil) 8 nil)) = some m ∧
          m ∈ keys (node (node nil 3 nil) 5 (node (node nil 6 nil) 8 nil)) ∧
          ∀ x ∈ keys (node (node nil 3 nil) 5 (node (node nil 6 nil) 8 nil)), x ≤ m)) :=
  ⟨by decide, by decide,
    minimum_maximum_extreme (node (node nil 3 nil) 5 (node (node nil 6 nil) 8 nil))
      (by decide) (by decide)⟩

end BinarySearchTree

namespace RemoveOutsideRange

open BinarySearchTree BinarySearchTree.Tree

theorem inorderTraversal_eq_keys (t : Tree) : inorderTraversal t = keys t := by
  induction t with
  | nil => rfl
  | node l k r ihl ihr => simp [inorderTraversal, keys, ihl, ihr]

theorem removeOutsideRange_node (l r : Tree) (k min max : Int) :
    removeOutsideRange (node l k r) min max =
      if k < min then removeOutsideRange r min max
      else if k > max then removeOutsideRange l min max
      else node (removeOutsideRange l min max) k (removeOutsideRange r min max) := by
  simp [removeOutsideRange]

theorem removeOutsideRange_spec (t : Tree) (min max : Int) (h : isBST t) :
    isBST (removeOutsideRange t min max) ∧
      keys (removeOutsideRange t min max)
        = (keys t).filter (fun k => decide (min ≤ k ∧ k ≤ max)) := by
  induction t with
  | nil => simp [removeOutsideRange, isBST, keys]
  | node l k r ihl ihr =>
    obtain ⟨hl, hr, bl, br⟩ := h
    obtain ⟨bl1, kl1⟩ := ihl bl
    obtain ⟨br1, kr1⟩ := ihr br
    have hfl : k < min → (keys l).filter (fun k => decide (min ≤ k ∧ k ≤ max)) = [] := by
      intro hk
      rw [List.filter_eq_nil_iff]
      intro x hx
      have := hl x hx
      simp only [decide_eq_true_eq, not_and, not_le]
      intro h1
      omega
    have hfr : max < k → (keys r).filter (fun k => decide (min ≤ k ∧ k ≤ max)) = [] := by
      intro hk
      rw [List.filter_eq_nil_iff]
      intro x hx
      have := hr x hx
      simp only [decide_eq_true_eq, not_and, not_le]
      intro _
      omega
    rw [removeOutsideRange_node]
    by_cases h1 : k < min
    · have hp : ¬ (min ≤ k ∧ k ≤ max) := by omega
      refine ⟨by rw [if_pos h1]; exact br1, ?_⟩
      rw [if_pos h1, kr1]
      simp only [keys, List.filter_append, List.filter_cons, hfl h1, hp, decide_False,
        List.nil_append]
      simp
    · by_cases h2 : k > max
      · have hp : ¬ (min ≤ k ∧ k ≤ max) := by omega
        refine ⟨by rw [if_neg h1, if_pos h2]; exact bl1, ?_⟩
        rw [if_neg h1, if_pos h2, kl1]
        simp only [keys, List.filter_append, List.filter_cons, hfr h2, hp, decide_False,
          List.append_nil]
        simp
      · have hp : min ≤ k ∧ k ≤ max := by omega
        rw [if_neg h1, if_neg h2]
        refine ⟨⟨?_, ?_, bl1, br1⟩, ?_⟩
        · intro x hx
          rw [kl1] at hx
          exact hl x (List.mem_filter.1 hx).1
        · intro x hx
          rw [kr1] at hx
          exact hr x (List.mem_filter.1 hx).1
        · simp [keys, List.filter_append, List.filter_cons, kl1, kr1, hp]

/-- C9: on a tree satisfying the BST ordering invariant, for all bounds `min` and `max`
(also with `min > max`), `removeOutsideRange` returns a tree satisfying the invariant
whose in-order traversal is the in-order traversal of the input with exactly the keys
outside `min <= k <= max` removed; the tree built by `main` from
6, -13, 14, -8, 15, 13, 7 pruned to [-10, 13] is printed as -8 6 7 13. -/
theorem removeOutsideRange_keeps_range (t : Tree) (min max : Int) (h : isBST t) :
    isBST (removeOutsideRange t min max) ∧
      inorderTraversal (removeOutsideRange t min max)
        = (inorderTraversal t).filter (fun k => decide (min ≤ k ∧ k ≤ max)) ∧
      inorderTraversal (removeOutsideRange mainTree (-10) 13) = [-8, 6, 7, 13] := by
  obtain ⟨h1, h2⟩ := removeOutsideRange_spec t min max h
  refine ⟨h1, ?_, by decide⟩
  rw [inorderTraversal_eq_keys, inorderTraversal_eq_keys, h2]

theorem removeOutsideRange_keeps_range_witness :
    isBST (node (node nil 3 nil) 5 (node (node nil 6 nil) 8 nil)) ∧
      (isBST (removeOutsideRange (node (node nil 3 nil) 5 (node (node nil 6 nil) 8 nil)) 7 4) ∧
        inorderTraversal
            (removeOutsideRange (node (node nil 3 nil) 5 (node (node nil 6 nil) 8 nil)) 7 4)
          = (inorderTraversal (node (node nil 3 nil) 5 (node (node nil 6 nil) 8 nil))).filter
              (fun k => decide ((7 : Int) ≤ k ∧ k ≤ 4)) ∧
        inorderTraversal (removeOutsideRange mainTree (-10) 13) = [-8, 6, 7, 13]) :=
  ⟨by decide,
    removeOutsideRange_keeps_range (node (node nil 3 nil) 5 (node (node nil 6 nil) 8 nil)) 7 4
      (by decide)⟩

end RemoveOutsideRange

namespace BinarySearchTree

open Tree

theorem height_node (l r : Tree) (v : Int) :
    height (node l v r) = if height l ≥ height r then height l + 1 else height r + 1 := by
  simp [height]

theorem height_insert_ge (t : Tree) (k : Int) :
    height t ≤ height (insert t k) ∧ height (insert t k) ≤ height t + 1 := by
  induction t with
  | nil => simp [insert, initTree, height]
  | node l v r ihl ihr =>
    rw [insert_node]
    split_ifs with h1 h2
    · omega
    · simp only [height_node]
      split_ifs <;> omega
    · simp only [height_node]
      split_ifs <;> omega

theorem checkBST_node (l r : Tree) (v : Int) :
    checkBST (node l v r) =
      if (rootKey l).any (fun x => decide (x > v)) = true then 0
      else if (rootKey r).any (fun x => decide (x < v)) = true then 0
      else if checkBST l = 0 ∨ checkBST r = 0 then 0
      else 1 := by
  cases l <;> cases r <;> (conv_lhs => rw [checkBST]) <;> simp only [rootKey, Option.any]

theorem checkBST_eq_zero_or_one (t : Tree) : checkBST t = 0 ∨ checkBST t = 1 := by
  cases t with
  | nil => exact Or.inr rfl
  | node l v r =>
    rw [checkBST_node]
    split_ifs
    · exact Or.inl rfl
    · exact Or.inl rfl
    · exact Or.inl rfl
    · exact Or.inr rfl

theorem checkBST_node_eq_one_iff (l r : Tree) (v : Int) :
    checkBST (node l v r) = 1 ↔
      (∀ x ∈ rootKey l, x ≤ v) ∧ (∀ x ∈ rootKey r, v ≤ x) ∧
        checkBST l = 1 ∧ checkBST r = 1 := by
  have hl := checkBST_eq_zero_or_one l
  have hr := checkBST_eq_zero_or_one r
  have e1 : (∀ x ∈ rootKey l, x ≤ v) ↔ ¬ ((rootKey l).any (fun x => decide (x > v)) = true) := by
    cases l <;> simp [rootKey]
  have e2 : (∀ x ∈ rootKey r, v ≤ x) ↔ ¬ ((rootKey r).any (fun x => decide (x < v)) = true) := by
    cases r <;> simp [rootKey]
  rw [e1, e2, checkBST_node]
  split_ifs with h1 h2 h3
  · simp [h1]
  · simp [h2]
  · rcases h3 with h3 | h3
    · simp [h3]
    · simp [h3]
  · rw [not_or] at h3
    have h4 : checkBST l = 1 := by
      rcases hl with h | h
      · exact absurd h h3.1
      · exact h
    have h5 : checkBST r = 1 := by
      rcases hr with h | h
      · exact absurd h h3.2
      · exact h
    simp [h1, h2, h4, h5]

theorem checkBST_eq_one_iff (t : Tree) : checkBST t = 1 ↔ childrenOrdered t := by
  induction t with
  | nil => simp [checkBST, childrenOrdered]
  | node l v r ihl ihr =>
    rw [checkBST_node_eq_one_iff, ihl, ihr]
    rfl

theorem rootKey_mem_keys (t : Tree) (x : Int) (h : x ∈ rootKey t) : x ∈ keys t := by
  cases t with
  | nil => simp [rootKey] at h
  | node l v r =>
    simp only [rootKey, Option.mem_def, Option.some.injEq] at h
    subst h
    simp [keys]

theorem childrenOrdered_of_isBST (t : Tree) (h : isBST t) : childrenOrdered t := by
  induction t with
  | nil => trivial
  | node l v r ihl ihr =>
    obtain ⟨hl, hr, bl, br⟩ := h
    exact ⟨fun x hx => le_of_lt (hl x (rootKey_mem_keys l x hx)),
      fun x hx => le_of_lt (hr x (rootKey_mem_keys r x hx)), ihl bl, ihr br⟩

theorem lowestCommonAncestor_node (init : Option Int) (l r : Tree) (v a b : Int) :
    lowestCommonAncestor init (node l v r) a b =
      if contains (node l v r) a = 0 ∨ contains (node l v r) b = 0 then some (-1)
      else if l = nil ∧ r = nil then some (-1)
      else
        match (if l ≠ nil then lowestCommonAncestor init l a b else init),
            (if r ≠ nil then lowestCommonAncestor init r a b else init) with
        | some s, some d =>
          if s = -1 ∧ d = -1 then some v
          else if s = -1 ∧ d ≠ -1 then lowestCommonAncestor init r a b
          else if d = -1 ∧ s ≠ -1 then lowestCommonAncestor init l a b
          else none
        | _, _ => none := by
  conv_lhs => rw [lowestCommonAncestor]

theorem lowestCommonAncestor_leaf (init : Option Int) (v a b : Int) :
    lowestCommonAncestor init (node nil v nil) a b = some (-1) := by
  rw [lowestCommonAncestor_node]
  split_ifs <;> first | rfl | simp_all

theorem contains_eq_zero_of_not_mem (t : Tree) (k : Int) (h : isBST t) (hk : k ∉ keys t) :
    contains t k = 0 := by
  rcases contains_eq_zero_or_one t k with h0 | h0
  · exact h0
  · exact absurd ((contains_eq_one_iff t k h).1 h0) hk

theorem lowestCommonAncestor_of_not_mem (init : Option Int) (t : Tree) (a b : Int)
    (h : isBST t) (hab : a ∉ keys t ∨ b ∉ keys t) :
    lowestCommonAncestor init t a b = some (-1) := by
  cases t with
  | nil => rfl
  | node l v r =>
    rw [lowestCommonAncestor_node, if_pos]
    rcases hab with ha | hb
    · exact Or.inl (contains_eq_zero_of_not_mem _ a h ha)
    · exact Or.inr (contains_eq_zero_of_not_mem _ b h hb)

/-- C11: on a tree satisfying the BST ordering invariant, the empty tree included, if
one of the two keys is stored in no node then `lowestCommonAncestor` returns -1,
whatever the content of its uninitialised locals. -/
theorem lowestCommonAncestor_absent_key (init : Option Int) (t : Tree) (a b : Int)
    (h : isBST t) (hab : a ∉ keys t ∨ b ∉ keys t) :
    lowestCommonAncestor init t a b = some (-1) :=
  lowestCommonAncestor_of_not_mem init t a b h hab

theorem lowestCommonAncestor_absent_key_witness :
    isBST (node (node nil 3 nil) 5 nil) ∧
      ((3 : Int) ∉ keys (node (node nil 3 nil) 5 nil) ∨
        (4 : Int) ∉ keys (node (node nil 3 nil) 5 nil)) ∧
      lowestCommonAncestor none (node (node nil 3 nil) 5 nil) 3 4 = some (-1) :=
  ⟨by decide, by decide,
    lowestCommonAncestor_absent_key none (node (node nil 3 nil) 5 nil) 3 4
      (by decide) (by decide)⟩

/-- C12 (the code departs from the claim): on the single-node tree storing 5 both
keys of the query (5, 5) are stored and the deepest common ancestor is 5, yet
`lowestCommonAncestor` returns -1; on the tree built from 5, 3, 8 the deepest common
ancestor of (3, 3) is 3, yet it returns 5; on the tree built from 5, 3 the query
(3, 5) reads an uninitialised local and has no defined result. -/
theorem lowestCommonAncestor_misses_deepest :
    isBST (node nil 5 nil) ∧ (5 : Int) ∈ keys (node nil 5 nil) ∧
      deepestCommonAncestor (node nil 5 nil) 5 5 = some 5 ∧
      lowestCommonAncestor none (node nil 5 nil) 5 5 = some (-1) ∧
      deepestCommonAncestor (insertAll [5, 3, 8]) 3 3 = some 3 ∧
      lowestCommonAncestor none (insertAll [5, 3, 8]) 3 3 = some 5 ∧
      deepestCommonAncestor (insertAll [5, 3]) 3 5 = some 5 ∧
      lowestCommonAncestor none (insertAll [5, 3]) 3 5 = none := by
  decide

/-- C13 (the code departs from the claim): the tree built from 5, 3 satisfies the BST
ordering invariant, does not store -1 and stores the distinct keys 3 and 5, whose
deepest common ancestor is 5; its root has no right child, so `lowestCommonAncestor`
as written reads the never-assigned `next_drept` and has no defined result.  The same
happens with `next_stang` on the tree built from 5, 8 for (5, 8).  On the tree built
from 5, 3, 8, 1, 4, 7, 9, where no node has a single child, it returns 3 for (1, 4)
and 5 for (1, 9). -/
theorem lowestCommonAncestor_unassigned_probe :
    isBST (insertAll [5, 3]) ∧ (-1 : Int) ∉ keys (insertAll [5, 3]) ∧ (3 : Int) ≠ 5 ∧
      (3 : Int) ∈ keys (insertAll [5, 3]) ∧ (5 : Int) ∈ keys (insertAll [5, 3]) ∧
      deepestCommonAncestor (insertAll [5, 3]) 3 5 = some 5 ∧
      lowestCommonAncestor none (insertAll [5, 3]) 3 5 ≠ some 5 ∧
      lowestCommonAncestor none (insertAll [5, 3]) 3 5 = none ∧
      isBST (insertAll [5, 8]) ∧ (-1 : Int) ∉ keys (insertAll [5, 8]) ∧
      (5 : Int) ∈ keys (insertAll [5, 8]) ∧ (8 : Int) ∈ keys (insertAll [5, 8]) ∧
      deepestCommonAncestor (insertAll [5, 8]) 5 8 = some 5 ∧
      lowestCommonAncestor none (insertAll [5, 8]) 5 8 = none ∧
      lowestCommonAncestor none (insertAll [5, 3, 8, 1, 4, 7, 9]) 1 4 = some 3 ∧
      lowestCommonAncestor none (insertAll [5, 3, 8, 1, 4, 7, 9]) 1 9 = some 5 := by
  decide

/-- C14: `height` of the empty tree is 0, of a single-node tree 1, and an insertion
never lowers the height and raises it by at most 1. -/
theorem height_insert_bounds (t : Tree) (k : Int) :
    height nil = 0 ∧ (∀ v : Int, height (node nil v nil) = 1) ∧
      height t ≤ height (insert t k) ∧ height (insert t k) ≤ height t + 1 :=
  ⟨rfl, fun _ => rfl, (height_insert_ge t k).1, (height_insert_ge t k).2⟩

/-- C15: on a non-empty tree satisfying the BST ordering invariant, inserting the
minimum again leaves `minimum` unchanged and inserting the maximum again leaves
`maximum` unchanged. -/
theorem minimum_maximum_reinsert (t : Tree) (hne : t ≠ nil) (h : isBST t) :
    (∃ m, minimum t = some m ∧ minimum (insert t m) = some m) ∧
      (∃ m, maximum t = some m ∧ maximum (insert t m) = some m) := by
  obtain ⟨m, hm, hmem, _⟩ := minimum_spec t hne h
  obtain ⟨n, hn, hnmem, _⟩ := maximum_spec t hne h
  refine ⟨⟨m, hm, ?_⟩, ⟨n, hn, ?_⟩⟩
  · rw [insert_eq_self_of_mem t m h hmem, hm]
  · rw [insert_eq_self_of_mem t n h hnmem, hn]

theorem minimum_maximum_reinsert_witness :
    node (node nil 3 nil) 5 (node (node nil 6 nil) 8 nil) ≠ nil ∧
      isBST (node (node nil 3 nil) 5 (node (node nil 6 nil) 8 nil)) ∧
      ((∃ m, minimum (node (node nil 3 nil) 5 (node (node nil 6 nil) 8 nil)) = some m ∧
          minimum (insert (node (node nil 3 nil) 5 (node (node nil 6 nil) 8 nil)) m)
            = some m) ∧
        (∃ m, maximum (node (node nil 3 nil) 5 (node (node nil 6 nil) 8 nil)) = some m ∧
          maximum (insert (node (node nil 3 nil) 5 (node (node nil 6 nil) 8 nil)) m)
            = some m)) :=
  ⟨by decide, by decide,
    minimum_maximum_reinsert (node (node nil 3 nil) 5 (node (node nil 6 nil) 8 nil))
      (by decide) (by decide)⟩

theorem perm_keys_rangeInsert (t : Tree) (k : Int) :
    List.Perm (keys (RemoveOutsideRange.insert t k)) (k :: keys t) := by
  induction t with
  | nil => simp [RemoveOutsideRange.insert, RemoveOutsideRange.newNode, keys]
  | node l v r ihl ihr =>
    simp only [RemoveOutsideRange.insert]
    split_ifs
    · simp only [keys]
      exact (ihl.append_right _).trans (by simp)
    · simp only [keys]
      have h1 : List.Perm (v :: keys (RemoveOutsideRange.insert r k)) (k :: v :: keys r) :=
        ((List.Perm.cons v ihr).trans (List.Perm.swap k v _))
      exact (h1.append_left (keys l)).trans List.perm_middle

theorem rangeInsert_ne_self (t : Tree) (k : Int) : RemoveOutsideRange.insert t k ≠ t := by
  intro e
  have h := (perm_keys_rangeInsert t k).length_eq
  rw [e] at h
  simp at h

/-- C16 (as stated, refuted): on the single-node tree storing 5, which satisfies the
BST ordering invariant and stores 5, it is not the case that both `insert` functions
return the tree unchanged for the key 5: the one of the range-pruning program adds a
right child. -/
theorem insert_siblings_disagree :
    isBST (node nil 5 nil) ∧ (5 : Int) ∈ keys (node nil 5 nil) ∧
      ¬ (insert (node nil 5 nil) 5 = node nil 5 nil ∧
        RemoveOutsideRange.insert (node nil 5 nil) 5 = node nil 5 nil) ∧
      RemoveOutsideRange.insert (node nil 5 nil) 5 = node nil 5 (node nil 5 nil) := by
  decide

/-- C16 (amended): for a stored key of a tree satisfying the BST ordering invariant,
`insert` of binary_search_tree.c returns the tree unchanged, whereas `insert` of
Remove_BST_keys_outside_the_given_range.cpp, which has no equality test, returns a
different tree whose in-order traversal is a rearrangement of the old traversal with
one more occurrence of the key. -/
theorem insert_duplicate_siblings (t : Tree) (k : Int) (h : isBST t) (hk : k ∈ keys t) :
    insert t k = t ∧ RemoveOutsideRange.insert t k ≠ t ∧
      List.Perm (RemoveOutsideRange.inorderTraversal (RemoveOutsideRange.insert t k))
        (k :: RemoveOutsideRange.inorderTraversal t) := by
  refine ⟨insert_eq_self_of_mem t k h hk, rangeInsert_ne_self t k, ?_⟩
  rw [RemoveOutsideRange.inorderTraversal_eq_keys, RemoveOutsideRange.inorderTraversal_eq_keys]
  exact perm_keys_rangeInsert t k

theorem insert_duplicate_siblings_witness :
    isBST (node (node nil 3 nil) 5 nil) ∧ (3 : Int) ∈ keys (node (node nil 3 nil) 5 nil) ∧
      (insert (node (node nil 3 nil) 5 nil) 3 = node (node nil 3 nil) 5 nil ∧
        RemoveOutsideRange.insert (node (node nil 3 nil) 5 nil) 3
          ≠ node (node nil 3 nil) 5 nil ∧
        List.Perm
          (RemoveOutsideRange.inorderTraversal
            (RemoveOutsideRange.insert (node (node nil 3 nil) 5 nil) 3))
          (3 :: RemoveOutsideRange.inorderTraversal (node (node nil 3 nil) 5 nil))) :=
  ⟨by decide, by decide,
    insert_duplicate_siblings (node (node nil 3 nil) 5 nil) 3 (by decide) (by decide)⟩

/-- C17: `checkBST` does not detect every violation of the BST ordering invariant: on
the tree with root 5 whose left child 3 has the right child 10 it returns 1 although
the invariant fails. -/
theorem checkBST_accepts_violation :
    checkBST (node (node nil 3 (node nil 10 nil)) 5 nil) = 1 ∧
      ¬ isBST (node (node nil 3 (node nil 10 nil)) 5 nil) ∧
      ∃ t : Tree, checkBST t = 1 ∧ ¬ isBST t :=
  ⟨by decide, by decide, node (node nil 3 (node nil 10 nil)) 5 nil, by decide, by decide⟩

/-- C18 (as stated, refuted): on the tree with root 5 and left child 5 `checkBST`
returns 1 although the left child's key is not strictly less than the root's key. -/
theorem checkBST_not_strict :
    ¬ (checkBST (node (node nil 5 nil) 5 nil) = 1 ↔
      childrenStrictlyOrdered (node (node nil 5 nil) 5 nil)) := by
  decide

/-- C18 (amended): `checkBST` returns 1 if and only if at every node the immediate
left child's key, when a left child exists, is not greater than the node's key and
the immediate right child's key, when a right child exists, is not less than it;
otherwise it returns 0. -/
theorem checkBST_iff_childrenOrdered (t : Tree) :
    (checkBST t = 1 ↔ childrenOrdered t) ∧ (checkBST t = 0 ↔ ¬ childrenOrdered t) := by
  have h1 := checkBST_eq_one_iff t
  refine ⟨h1, ?_⟩
  rw [← h1]
  rcases checkBST_eq_zero_or_one t with h0 | h0 <;> simp [h0]

/-- C19: on a single-node tree `lowestCommonAncestor` returns -1 for all keys, also
when both keys equal the stored key, whatever the content of its uninitialised
locals. -/
theorem lowestCommonAncestor_single_node (init : Option Int) (v a b : Int) :
    lowestCommonAncestor init (node nil v nil) a b = some (-1) ∧
      lowestCommonAncestor init (node nil v nil) v v = some (-1) :=
  ⟨lowestCommonAncestor_leaf init v a b, lowestCommonAncestor_leaf init v v v⟩

/-- C20: `checkBST` returns 1 on every tree satisfying the BST ordering invariant, and
hence on every tree built by insertions from the empty tree. -/
theorem checkBST_of_isBST (t : Tree) (h : isBST t) :
    checkBST t = 1 ∧ ∀ ks : List Int, checkBST (insertAll ks) = 1 :=
  ⟨(checkBST_eq_one_iff t).2 (childrenOrdered_of_isBST t h),
    fun ks => (checkBST_eq_one_iff _).2 (childrenOrdered_of_isBST _ (isBST_insertAll ks))⟩

theorem checkBST_of_isBST_witness :
    isBST (node (node nil 3 nil) 5 (node (node nil 6 nil) 8 nil)) ∧
      (checkBST (node (node nil 3 nil) 5 (node (node nil 6 nil) 8 nil)) = 1 ∧
        ∀ ks : List Int, checkBST (insertAll ks) = 1) :=
  ⟨by decide,
    checkBST_of_isBST (node (node nil 3 nil) 5 (node (node nil 6 nil) 8 nil)) (by decide)⟩

end BinarySearchTree
